import Mathlib

/-!
Verification development for the `pam_google_authenticator` verification
engine (src/libpam/pam_google_authenticator.c).

The C code is shallowly embedded: byte strings become `List Nat` (bytes),
text buffers become `List Char`, machine integers become `Nat`/`Int` with
explicit reductions modulo 2^32 / 2^64 where C overflow or casts matter.
All definitions are executable.
-/

set_option maxRecDepth 8000

namespace GA

/-- 2^32, the modulus of C `unsigned int` arithmetic. -/
def M32 : Nat := 4294967296

/-- 2^64, the modulus of C `unsigned long` arithmetic (LP64). -/
def M64 : Nat := 18446744073709551616

/-- Largest C `unsigned long` value (ULONG_MAX on LP64). -/
def ULONGMAX : Nat := M64 - 1

/-- C cast of an `unsigned`/`Nat` value to a 32-bit signed `int`
(wrap modulo 2^32, reinterpret as two's complement). -/
def toInt32 (n : Nat) : Int :=
  let m := n % M32
  if m < 2147483648 then (m : Int) else (m : Int) - (M32 : Int)

/-- C cast of a signed integer value to a 32-bit signed `int`. -/
def wrap32 (x : Int) : Int :=
  let m := x % (M32 : Int)
  if m < 2147483648 then m else m - (M32 : Int)

/-- C conversion of a signed `int` value to `unsigned long`
(wrap modulo 2^64), used when an `int` counter is passed to
`compute_code(..., unsigned long value)`. -/
def toUInt64 (x : Int) : Nat := (x % (M64 : Int)).toNat

/-! ## SHA-1 and HMAC-SHA1

The module's Makefile links `sha1.c` and `hmac.c`, which are not part of
the source under consideration; the spec (§1) treats HMAC-SHA1 as an
externally supplied pure primitive.  Modelled from the spec: the standard
SHA-1 (RFC 3174) and HMAC (RFC 2104) algorithms over byte lists. -/

/-- Left-rotation of a 32-bit word by `n` bits. -/
def rotl (n w : Nat) : Nat := ((w <<< n) ||| (w >>> (32 - n))) % M32

/-- Big-endian byte encoding of `x` on `n` bytes. -/
def toBytesBE (n x : Nat) : List Nat :=
  (List.range n).map (fun i => (x >>> (8 * (n - 1 - i))) % 256)

/-- SHA-1 round function f_t. -/
def sha1F (t b c d : Nat) : Nat :=
  if t < 20 then (b &&& c) ||| ((b ^^^ (M32 - 1)) &&& d)
  else if t < 40 then b ^^^ c ^^^ d
  else if t < 60 then (b &&& c) ||| (b &&& d) ||| (c &&& d)
  else b ^^^ c ^^^ d

/-- SHA-1 round constant K_t. -/
def sha1K (t : Nat) : Nat :=
  if t < 20 then 1518500249
  else if t < 40 then 1859775393
  else if t < 60 then 2400959708
  else 3395469782

/-- Expand a 16-word block to the 80-word SHA-1 message schedule. -/
def sha1W (block : List Nat) : List Nat :=
  (List.range 64).foldl
    (fun ws _ =>
      ws ++ [rotl 1 (ws.getD (ws.length - 3) 0 ^^^ ws.getD (ws.length - 8) 0 ^^^
                     ws.getD (ws.length - 14) 0 ^^^ ws.getD (ws.length - 16) 0)])
    block

/-- One SHA-1 round step on the five-word working state. -/
def sha1Round (w : List Nat) (st : Nat × Nat × Nat × Nat × Nat) (t : Nat) :
    Nat × Nat × Nat × Nat × Nat :=
  let (a, b, c, d, e) := st
  ((rotl 5 a + sha1F t b c d + e + sha1K t + w.getD t 0) % M32,
   a, rotl 30 b, c, d)

/-- SHA-1 compression of one 512-bit block into the chaining state. -/
def sha1Compress (h : Nat × Nat × Nat × Nat × Nat) (block : List Nat) :
    Nat × Nat × Nat × Nat × Nat :=
  let w := sha1W block
  let (a, b, c, d, e) := (List.range 80).foldl (sha1Round w) h
  ((h.1 + a) % M32, (h.2.1 + b) % M32, (h.2.2.1 + c) % M32,
   (h.2.2.2.1 + d) % M32, (h.2.2.2.2 + e) % M32)

/-- SHA-1 padding: append 0x80, zeros, and the 64-bit bit length. -/
def sha1Pad (msg : List Nat) : List Nat :=
  msg ++ [128] ++ List.replicate ((119 - msg.length % 64) % 64) 0 ++
    toBytesBE 8 (8 * msg.length)

/-- Group a byte list into 4-byte big-endian 32-bit words. -/
def bytesToWords : List Nat → List Nat
  | b0 :: b1 :: b2 :: b3 :: rest =>
      (((b0 * 256 + b1) * 256 + b2) * 256 + b3) :: bytesToWords rest
  | _ => []

/-- Split a byte list into 64-byte blocks. -/
def group64 (l : List Nat) : List (List Nat) :=
  (List.range ((l.length + 63) / 64)).map (fun i => (l.drop (64 * i)).take 64)

/-- SHA-1 of a byte list, as a 20-byte digest. -/
def sha1Bytes (msg : List Nat) : List Nat :=
  let blocks := group64 (sha1Pad msg)
  let h := blocks.foldl (fun h b => sha1Compress h (bytesToWords b))
    (1732584193, 4023233417, 2562383102, 271733878, 3285377520)
  toBytesBE 4 h.1 ++ toBytesBE 4 h.2.1 ++ toBytesBE 4 h.2.2.1 ++
    toBytesBE 4 h.2.2.2.1 ++ toBytesBE 4 h.2.2.2.2

/-- HMAC-SHA1 with block size 64. -/
def hmac_sha1 (key msg : List Nat) : List Nat :=
  let k := if 64 < key.length then sha1Bytes key else key
  let kp := k ++ List.replicate (64 - k.length) 0
  sha1Bytes (kp.map (fun b => b ^^^ 92) ++
    sha1Bytes (kp.map (fun b => b ^^^ 54) ++ msg))

/-! ## The codec: `compute_code` (pam_google_authenticator.c:846-864) -/

/-- `compute_code(secret, secretLen, value)`: encode the counter as 8
big-endian bytes, HMAC-SHA1 with the secret as key, dynamic truncation at
`offset = last byte & 0xF`, mask the top bit, reduce modulo 1,000,000. -/
def compute_code (secret : List Nat) (value : Nat) : Nat :=
  let val := toBytesBE 8 (value % M64)
  let hash := hmac_sha1 secret val
  let offset := hash.getD 19 0 &&& 15
  let truncatedHash :=
    (List.range 4).foldl (fun t i => (t <<< 8) ||| hash.getD (offset + i) 0) 0
  (truncatedHash &&& 2147483647) % 1000000

/-! ## C string-parsing primitives

The state file is a NUL-free text buffer, embedded as `List Char`. -/

/-- `isspace` for the "C" locale. -/
def isSpaceC (c : Char) : Bool :=
  c = ' ' ∨ c = '\t' ∨ c = '\n' ∨ c = '\r' ∨ c = '\x0b' ∨ c = '\x0c'

/-- ASCII decimal digit test. -/
def isDigitC (c : Char) : Bool := '0' ≤ c ∧ c ≤ '9'

/-- End-of-line characters (the separators used by the config scanner). -/
def isEolC (c : Char) : Bool := c = '\r' ∨ c = '\n'

/-- Accumulate a run of decimal digits: value so far, digit count, rest. -/
def grabDigits (acc n : Nat) : List Char → Nat × Nat × List Char
  | [] => (acc, n, [])
  | c :: cs =>
      if isDigitC c then grabDigits (acc * 10 + (c.toNat - 48)) (n + 1) cs
      else (acc, n, c :: cs)

/-- Strip an optional leading sign, returning it and the remainder. -/
def signOf (l : List Char) : Option Char × List Char :=
  match l with
  | [] => (none, [])
  | c :: r =>
      if c = '-' then (some '-', r)
      else if c = '+' then (some '+', r)
      else (none, c :: r)

/-- `strtoul(s, &endptr, 10)`: returns (value, consumed-char count, rest =
endptr suffix, ERANGE flag).  When no conversion is performed the value is
0 and `endptr` is the original pointer (consumed = 0, rest = s).  On
overflow the value is ULONG_MAX and ERANGE is flagged.  A leading minus
sign negates the value modulo 2^64. -/
def strtoul_ (s : List Char) : Nat × Nat × List Char × Bool :=
  let ws := s.takeWhile isSpaceC
  let s1 := s.dropWhile isSpaceC
  let sign := signOf s1
  let (v, nd, rest) := grabDigits 0 0 sign.2
  if nd = 0 then (0, 0, s, false)
  else if ULONGMAX < v then
    (ULONGMAX, ws.length + (if sign.1.isSome then 1 else 0) + nd, rest, true)
  else
    let val := if sign.1 = some '-' then (M64 - v % M64) % M64 else v
    (val, ws.length + (if sign.1.isSome then 1 else 0) + nd, rest, false)

/-- `strtol(s, NULL, 10)`: signed variant; clamps to [LONG_MIN, LONG_MAX]
on overflow; 0 when no conversion is performed. -/
def strtol_val (s : List Char) : Int :=
  let s1 := s.dropWhile isSpaceC
  let sign := signOf s1
  let (v, nd, _) := grabDigits 0 0 sign.2
  if nd = 0 then 0
  else if sign.1 = some '-' then max (-(v : Int)) (-9223372036854775808)
  else min (v : Int) 9223372036854775807

/-! ## Config line store (get_cfg_value, pam_google_authenticator.c:400-425)

`get_cfg_value` walks the buffer line by line: it jumps with
`strcspn(line, "\r\n")` to the next separator and with `strspn` over the
separator run, so the positions it examines are exactly the maximal
`\r\n`-free nonempty segments of the buffer.  `splitLines` produces that
segment list. -/

/-- Maximal nonempty segments of the buffer between runs of `\r`/`\n`. -/
def splitLines (l : List Char) : List (List Char) :=
  let step := fun (c : Char) (st : List Char × List (List Char)) =>
    if isEolC c then ([], if st.1 = [] then st.2 else st.1 :: st.2)
    else (c :: st.1, st.2)
  let fin := l.foldr step ([], [])
  if fin.1 = [] then fin.2 else fin.1 :: fin.2

/-- The matching test of `get_cfg_value`: the line starts with `"` and a
space, then the key, then end-of-line or a space/tab; on a match the value
is the remainder after skipping spaces and tabs. -/
def cfgLineValue (key line : List Char) : Option (List Char) :=
  match line with
  | '"' :: ' ' :: rest =>
      if rest.take key.length = key then
        match rest.drop key.length with
        | [] => some []
        | c :: tl =>
            if c = ' ' ∨ c = '\t' then
              some ((c :: tl).dropWhile (fun c => c = ' ' ∨ c = '\t'))
            else none
      else none
  | _ => none

/-- `get_cfg_value(key, buf)`: value of the first matching option line
(out-of-memory sentinel elided; allocation always succeeds here). -/
def get_cfg_value (key buf : List Char) : Option (List Char) :=
  (splitLines buf).findSome? (cfgLineValue key)

/-! ## TOTP-mode flag (is_totp, pam_google_authenticator.c:298-300) -/

/-- `strstr(hay, needle) != NULL`: naive substring search. -/
def strstrB (needle : List Char) : List Char → Bool
  | [] => needle.isEmpty
  | c :: rest => needle.isPrefixOf (c :: rest) || strstrB needle rest

/-- The literal `" TOTP_AUTH` searched for by `is_totp`. -/
def totpToken : List Char := ['"', ' ', 'T', 'O', 'T', 'P', '_', 'A', 'U', 'T', 'H']

/-- `is_totp(buf)`: true iff `strstr(buf, "\" TOTP_AUTH")` finds the token
anywhere in the buffer. -/
def is_totp (buf : List Char) : Bool := strstrB totpToken buf

/-! ## WINDOW_SIZE and TIME_SKEW options -/

def WINDOW_SIZE_key : List Char := ['W','I','N','D','O','W','_','S','I','Z','E']

def TIME_SKEW_key : List Char := ['T','I','M','E','_','S','K','E','W']

def RATE_LIMIT_key : List Char := ['R','A','T','E','_','L','I','M','I','T']

def TOTP_AUTH_key : List Char := ['T','O','T','P','_','A','U','T','H']

/-- The validity checks `window_size` applies to the raw option value
(pam_google_authenticator.c:729-740): parse with `strtoul`, then reject on
range error, empty value, no conversion, trailing garbage that is not
space/tab/newline, or a value outside [1, 100].  Returns 0 on error. -/
def window_size_val (v : List Char) : Nat :=
  let r := strtoul_ v
  let w := toInt32 r.1
  let badTail : Bool :=
    match r.2.2.1.head? with
    | some c => if c = ' ' ∨ c = '\t' ∨ c = '\n' ∨ c = '\r' then false else true
    | none => false
  if r.2.2.2 ∨ v = [] ∨ r.2.1 = 0 ∨ badTail = true ∨ w < 1 ∨ 100 < w then 0
  else w.toNat

/-- `window_size(buf)` (pam_google_authenticator.c:716-743): 3 when the
option is absent, otherwise the validated value (0 signalling an error). -/
def window_size (buf : List Char) : Nat :=
  match get_cfg_value WINDOW_SIZE_key buf with
  | none => 3
  | some v => window_size_val v

/-- The TIME_SKEW lookup of `check_timebased_code`
(pam_google_authenticator.c:1016-1026): absent option means skew 0;
otherwise `(int)strtol(value, NULL, 10)` with no validation at all. -/
def skew_of (buf : List Char) : Int :=
  match get_cfg_value TIME_SKEW_key buf with
  | none => 0
  | some v => wrap32 (strtol_val v)

/-! ## TOTP window scan and skew search
(check_timebased_code, pam_google_authenticator.c:999-1063) -/

/-- The offsets tried by `for (int i = -((window-1)/2); i <= window/2; ++i)`. -/
def window_offsets (w : Nat) : List Int :=
  (List.range w).map (fun (k : Nat) => (k : Int) - ((w - 1) / 2 : Nat))

/-- The skew search loop (pam_google_authenticator.c:1044-1056) with its
iteration count as a parameter: for `i` from 0 to `n - 1` probe `tm - i`
then `tm + i`, remembering only the first match (the sentinel value
1000000 is rendered as `none`); the loop never exits early. -/
def skew_search_n (secret : List Nat) (tm : Int) (code : Nat) (n : Nat) : Option Int :=
  (List.range n).foldl
    (fun (sk : Option Int) (i : Nat) =>
      let sk1 := if compute_code secret (toUInt64 (tm - i)) = code ∧ sk = none
                 then some (-(i : Int)) else sk
      if compute_code secret (toUInt64 (tm + i)) = code ∧ sk1 = none
      then some (i : Int) else sk1)
    none

/-- The skew search with the source's bound `25*60` = 1500 iterations. -/
def skew_search (secret : List Nat) (tm : Int) (code : Nat) : Option Int :=
  skew_search_n secret tm code 1500

/-- The offsets probed by `n` iterations of the search, in probe order. -/
def skew_probe_offsets_n (n : Nat) : List Int :=
  (List.range n).flatMap (fun i => [-(i : Int), (i : Int)])

/-- The offsets probed by the skew search, in probe order. -/
def skew_probe_offsets : List Int := skew_probe_offsets_n 1500

/-- Control-flow outcome of `check_timebased_code`: `pass` is `return 1`
(not a TOTP attempt), `delegate c` is the tail call to
`invalidate_timebased_code(c, ...)`, `skewCheck s` the tail call to
`check_time_skew(..., s, tm)`, `errWindow` the `return -1` after a bad
WINDOW_SIZE, `noMatch` the final `return -1`. -/
inductive TotpOutcome where
  | pass
  | delegate (counter : Int)
  | skewCheck (skew : Int)
  | errWindow
  | noMatch
deriving DecidableEq, Repr

/-- `check_timebased_code` (pam_google_authenticator.c:999-1063) up to its
two delegated tail calls. -/
def check_timebased_code (buf : List Char) (secret : List Nat) (tm code : Int)
    (noskewadj : Bool) : TotpOutcome :=
  if ¬ is_totp buf then .pass
  else if code < 0 ∨ 1000000 ≤ code then .pass
  else
    let skew := skew_of buf
    let w := window_size buf
    if w = 0 then .errWindow
    else
      match (window_offsets w).find?
          (fun i => compute_code secret (toUInt64 (tm + skew + i)) == code.toNat) with
      | some i => .delegate (tm + skew + i)
      | none =>
          if noskewadj then .noMatch
          else
            match skew_search secret tm code.toNat with
            | some s => .skewCheck s
            | none => .noMatch

/-! ## Replay ledger (invalidate_timebased_code,
pam_google_authenticator.c:750-838)

The DISALLOW_REUSE value is a ledger of blocked counters; the loop
walks it left to right: reject on `tm == blocked`, silently drop entries
with `|blocked - tm| >= window`, keep the rest, then append `tm`.
The ledger is embedded as its list of parsed counter values. -/

/-- One pass of the blocked-counter loop; `none` is the replay rejection. -/
def invalidate_step (tm w : Int) : List Int → Option (List Int)
  | [] => some []
  | b :: rest =>
      if b = tm then none
      else if w ≤ b - tm ∨ w ≤ tm - b then invalidate_step tm w rest
      else (invalidate_step tm w rest).map (fun l => b :: l)

/-- `invalidate_timebased_code(tm, ...)` on a syntactically valid ledger:
`none` = replay rejected, `some l` = login allowed with new ledger `l`
(the buffer is marked updated in that case). -/
def invalidate_timebased_code (tm w : Int) (ledger : List Int) : Option (List Int) :=
  (invalidate_step tm w ledger).map (fun l => l ++ [tm])

/-! ## Skew tracker (check_time_skew, pam_google_authenticator.c:869-993)

The RESETTING_TIME_SKEW ledger is embedded as its parsed list of
(timestamp, skew) pairs; the parse loop keeps the last three entries. -/

/-- Result of `check_time_skew`: `retype` = the new evidence repeats the
last entry, nothing is written and the attempt fails; `accepted avg` =
TIME_SKEW is set to `avg`, RESETTING_TIME_SKEW is cleared and the attempt
succeeds; `keepTrying l` = RESETTING_TIME_SKEW is set to `l` and the
attempt fails.  The buffer is marked updated except under `retype`. -/
inductive SkewResult where
  | retype
  | accepted (avg : Int)
  | keepTrying (ledger : List (Int × Int))
deriving DecidableEq, Repr

/-- The evidence-append and three-entry check of `check_time_skew`
(pam_google_authenticator.c:935-993): append `(tm, skew)` keeping the
last three entries; with three entries, accept (and average) when the
timestamps increase with gaps at most 2 and the two stored skews are each
within one unit of the current `skew`; otherwise persist the ledger and
keep trying. -/
def check_time_skew_append (skew tm : Int) (tms0 : List (Int × Int)) : SkewResult :=
  let appended := tms0 ++ [(tm, skew)]
  let tms1 := appended.drop (appended.length - 3)
  match tms1 with
  | [(t0, s0), (t1, s1), (t2, s2)] =>
      if t1 ≤ t0 ∨ t0 + 2 < t1 ∨ s0 - skew < -1 ∨ 1 < s0 - skew then
        .keepTrying [(t0, s0), (t1, s1), (t2, s2)]
      else if t2 ≤ t1 ∨ t1 + 2 < t2 ∨ s1 - skew < -1 ∨ 1 < s1 - skew then
        .keepTrying [(t0, s0), (t1, s1), (t2, s2)]
      else .accepted (Int.tdiv (s0 + s1 + s2) 3)
  | l => .keepTrying l

/-- `check_time_skew(..., skew, tm)` on the parsed ledger `entries` (the
parse loop keeps the last three pairs); identical evidence (`tm + skew`
equal to the newest entry's sum) is discarded without a state change. -/
def check_time_skew (skew tm : Int) (entries : List (Int × Int)) : SkewResult :=
  let tms0 := entries.drop (entries.length - 3)
  match tms0.getLast? with
  | some e =>
      if tm + skew = e.1 + e.2 then .retype
      else check_time_skew_append skew tm tms0
  | none => check_time_skew_append skew tm tms0

/-! ## Rate limiter (rate_limit, pam_google_authenticator.c:513-628) -/

/-- The timestamp-list loop of `rate_limit`
(pam_google_authenticator.c:553-573): each entry must be preceded by a
space or tab and parse without a range error; values are stored as
`unsigned int`.  When `strtoul` makes no progress the C loop never
terminates (it keeps appending zeros until memory is exhausted); the
model's fuel renders that case as a parse failure. -/
def rl_parse_ts (fuel : Nat) (ptr : List Char) (acc : List Nat) : Option (List Nat) :=
  match fuel with
  | 0 => none
  | fuel + 1 =>
      match ptr with
      | [] => some acc
      | c :: _ =>
          if isEolC c then some acc
          else if c = ' ' ∨ c = '\t' then
            let r := strtoul_ ptr
            if r.2.2.2 then none
            else rl_parse_ts fuel r.2.2.1 (acc ++ [r.1 % M32])
          else none

/-- Parsing of the RATE_LIMIT value `N T t1 ... tk`
(pam_google_authenticator.c:526-575): `N ∈ [1,100]`, `T ∈ [1,3600]`,
separated by spaces/tabs; `none` on any syntax error. -/
def rate_limit_parse (v : List Char) : Option (Nat × Nat × List Nat) :=
  let ra := strtoul_ v
  let attempts := toInt32 ra.1
  if attempts < 1 ∨ 100 < attempts ∨ ra.2.2.2 ∨
     ¬ (ra.2.2.1.head? = some ' ' ∨ ra.2.2.1.head? = some '\t') then none
  else
    let rb := strtoul_ ra.2.2.1
    let interval := toInt32 rb.1
    if interval < 1 ∨ 3600 < interval ∨ rb.2.2.2 then none
    else
      (rl_parse_ts (rb.2.2.1.length + 1) rb.2.2.1 []).map
        (fun ts => (attempts.toNat, interval.toNat, ts))

/-- Unsigned 32-bit subtraction, as in `now - interval` on `unsigned int`. -/
def usub32 (a b : Nat) : Nat := (a + M32 - b % M32) % M32

/-- The start/stop pruning scan of `rate_limit`
(pam_google_authenticator.c:579-588) on the sorted timestamp list: skip
entries below `bound`, stop at the first entry beyond `now`, keep the
rest. -/
def prune_timestamps (bound now : Nat) : List Nat → List Nat
  | [] => []
  | t :: rest =>
      if t < bound then prune_timestamps bound now rest
      else if now < t then []
      else t :: prune_timestamps bound now rest

/-- Result of `rate_limit`: `disabled` = no RATE_LIMIT option (return 0,
nothing written), `errParse` = invalid option value (return -1, nothing
written), `ok ts` = allowed (return 0), `exceeded ts` = too many attempts
(return -1); in the last two cases the RATE_LIMIT line is rewritten as
`N T ts` and the buffer is marked updated. -/
inductive RateResult where
  | disabled
  | errParse
  | ok (ts : List Nat)
  | exceeded (ts : List Nat)
deriving DecidableEq, Repr

/-- `rate_limit(buf)` at wall-clock time `now`; the Bool is the
`*updated = 1` effect. -/
def rate_limit (buf : List Char) (now : Nat) : RateResult × Bool :=
  match get_cfg_value RATE_LIMIT_key buf with
  | none => (.disabled, false)
  | some v =>
      match rate_limit_parse v with
      | none => (.errParse, false)
      | some (n, t, ts) =>
          let now32 := now % M32
          let sorted := List.insertionSort (fun a b => a ≤ b) (now32 :: ts)
          let kept := prune_timestamps (usub32 now32 t) now32 sorted
          if n < kept.length then (.exceeded (kept.drop (kept.length - n)), true)
          else (.ok kept, true)

/-! ## Scratch codes (check_scratch_codes, pam_google_authenticator.c:664-714) -/

theorem grabDigits_rest_le (l : List Char) :
    ∀ acc n, ((grabDigits acc n l).2.2).length ≤ l.length := by
  induction l with
  | nil => intro acc n; simp [grabDigits]
  | cons c cs ih =>
      intro acc n
      simp only [grabDigits]
      split
      · exact le_trans (ih _ _) (by simp)
      · simp

theorem grabDigits_count_ge (l : List Char) :
    ∀ acc n, n ≤ (grabDigits acc n l).2.1 := by
  induction l with
  | nil => intro acc n; simp [grabDigits]
  | cons c cs ih =>
      intro acc n
      simp only [grabDigits]
      split
      · exact le_trans (Nat.le_succ n) (ih _ _)
      · simp

theorem grabDigits_rest_lt (l : List Char) :
    ∀ acc n, (grabDigits acc n l).2.1 ≠ n → ((grabDigits acc n l).2.2).length < l.length := by
  induction l with
  | nil => intro acc n h; simp [grabDigits] at h
  | cons c cs ih =>
      intro acc n h
      simp only [grabDigits] at h ⊢
      by_cases hd : isDigitC c = true
      · simp only [hd, if_true]
        exact lt_of_le_of_lt (grabDigits_rest_le cs _ _) (by simp)
      · simp [hd] at h

theorem dropWhile_length_le (p : Char → Bool) (l : List Char) :
    (l.dropWhile p).length ≤ l.length := by
  induction l with
  | nil => simp
  | cons c cs ih =>
      by_cases h : p c
      · simpa [List.dropWhile_cons_of_pos h] using le_trans ih (by simp)
      · simp [List.dropWhile_cons_of_neg h]

theorem signOf_rest_le (l : List Char) : ((signOf l).2).length ≤ l.length := by
  match l with
  | [] => simp [signOf]
  | c :: r =>
      simp only [signOf]
      split
      · simp
      · split <;> simp

/-- When `strtoul` consumes at least one character, the rest is strictly
shorter than the input. -/
theorem strtoul_rest_lt (s : List Char) :
    (strtoul_ s).2.1 ≠ 0 → ((strtoul_ s).2.2.1).length < s.length := by
  intro h
  simp only [strtoul_] at h ⊢
  have hle : (s.dropWhile isSpaceC).length ≤ s.length := dropWhile_length_le _ _
  have hs2 : ((signOf (s.dropWhile isSpaceC)).2).length ≤ s.length :=
    le_trans (signOf_rest_le _) hle
  rcases hg : grabDigits 0 0 (signOf (s.dropWhile isSpaceC)).2 with ⟨v, nd, rest⟩
  simp only [hg] at h ⊢
  by_cases hnd : nd = 0
  · simp [hnd] at h
  · have hndpos : (grabDigits 0 0 (signOf (s.dropWhile isSpaceC)).2).2.1 ≠ 0 := by
      rw [hg]; exact hnd
    have hrest : rest.length < ((signOf (s.dropWhile isSpaceC)).2).length := by
      have := grabDigits_rest_lt _ 0 0 hndpos
      rw [hg] at this; exact this
    have hfin : rest.length < s.length := lt_of_lt_of_le hrest hs2
    simp only [hnd, if_false]
    split <;> simp [hfin]

/-- Break test of the scratch-code scanner: the character at `endptr` is
neither end-of-buffer nor an end-of-line character. -/
def badTailB (rest : List Char) : Bool :=
  match rest.head? with
  | some c => ! isEolC c
  | none => false

/-- The scanning loop of `check_scratch_codes`
(pam_google_authenticator.c:671-710), acting on the suffix of the buffer
that starts right after the secret line.  One iteration: skip newline
characters, skip a whole line when it starts with `"` (an option line),
otherwise `strtoul`; break (result `none` = no scratch code used) on a
range error, a parse that makes no progress, a parse not ending at
end-of-line/end-of-buffer, or a value below 10,000,000; on a value equal
to the submitted code, remove the consumed span from the buffer (the
suffix rewrites to `none`-consumed prefix ++ rest) and succeed; otherwise
continue after the consumed span.  Values are compared as C `int`s. -/
def scratch_scan (code : Int) (s : List Char) : Option (List Char) :=
  match hm : s.dropWhile isEolC with
  | '"' :: tl =>
      (scratch_scan code (tl.dropWhile (fun c => c ≠ '\n'))).map
        (fun t => s.takeWhile isEolC ++
          ('"' :: tl.takeWhile (fun c => c ≠ '\n')) ++ t)
  | other =>
      let r := strtoul_ other
      let sc := toInt32 r.1
      if h : r.2.2.2 = true ∨ r.2.1 = 0 ∨ badTailB r.2.2.1 = true ∨ sc < 10000000
      then none
      else if sc = code then some (s.takeWhile isEolC ++ r.2.2.1)
      else
        (scratch_scan code r.2.2.1).map
          (fun t => s.takeWhile isEolC ++ other.take r.2.1 ++ t)
termination_by s.length
decreasing_by
  · have h1 : (s.dropWhile isEolC).length ≤ s.length := dropWhile_length_le _ _
    rw [hm] at h1
    have h2 : (tl.dropWhile (fun c => c ≠ '\n')).length ≤ tl.length :=
      dropWhile_length_le _ _
    simp at h1; omega
  · have h1 : (s.dropWhile isEolC).length ≤ s.length := dropWhile_length_le _ _
    rw [hm] at h1
    have h2 : (strtoul_ other).2.1 ≠ 0 := by
      intro hc; exact h (Or.inr (Or.inl hc))
    have h3 := strtoul_rest_lt other h2
    omega

/-- `check_scratch_codes(..., buf, code)` (pam_google_authenticator.c:
664-714): skip the secret line, then run the scan; on a match the result
is 0 (success) with the edited buffer and the updated flag set, otherwise
1 (fall through to the other verifiers) with the buffer untouched. -/
def check_scratch_codes (buf : List Char) (code : Int) : Int × List Char × Bool :=
  match scratch_scan code (buf.dropWhile (fun c => c ≠ '\n')) with
  | some t => (0, buf.takeWhile (fun c => c ≠ '\n') ++ t, true)
  | none => (1, buf, false)

/-! ## Spec-side description of the scratch-code protocol (spec §4.5)

These definitions follow the specification's words, for comparison with
the embedded code above: the buffer after the secret line is a list of
lines; option lines (starting with a double quote) and blank lines are
skipped; a line qualifies as a scratch code iff parsing it as a decimal
integer consumes the entire line and the (C `int`) value is at least
10,000,000; scanning stops at the first non-qualifying line; a match
removes the line's text (its terminating newline survives as a blank
line). -/

/-- Render a line list into a buffer, each line newline-terminated. -/
def renderLines (ls : List (List Char)) : List Char :=
  (ls.map (fun l => l ++ ['\n'])).flatten

/-- Spec-side scan over the line list; `some ls'` = the submitted code
matched a qualifying scratch code and the lines rewrite to `ls'`. -/
def scratch_spec_scan (code : Int) : List (List Char) → Option (List (List Char))
  | [] => none
  | l :: ls =>
      if l = [] then (scratch_spec_scan code ls).map (fun r => l :: r)
      else if l.head? = some '"' then (scratch_spec_scan code ls).map (fun r => l :: r)
      else if l ≠ [] ∧ l.all isDigitC then
        let v := (grabDigits 0 0 l).1
        if ULONGMAX < v ∨ toInt32 (min v ULONGMAX) < 10000000 then none
        else if toInt32 v = code then some ([] :: ls)
        else (scratch_spec_scan code ls).map (fun r => l :: r)
      else none

/-- Well-formedness of a line of the scratch region, from the state-file
shape (spec §3): no embedded line separators, and the line is a blank
line, an option line, an all-digit line, a digit run followed by trailing
garbage (an incompletely consumed number), or opaque junk that cannot be
mistaken for a number.  Lines starting with whitespace or a sign are
excluded: for those, C's `strtoul` would scan across line boundaries. -/
def wfLine (l : List Char) : Prop :=
  (∀ c ∈ l, isEolC c = false) ∧
  (l = [] ∨ l.head? = some '"' ∨ (l ≠ [] ∧ l.all isDigitC = true) ∨
   (∃ ds c tl, l = ds ++ c :: tl ∧ ds ≠ [] ∧ ds.all isDigitC = true ∧
     isDigitC c = false) ∨
   (∃ c tl, l = c :: tl ∧ isDigitC c = false ∧ isSpaceC c = false ∧
     c ≠ '"' ∧ c ≠ '+' ∧ c ≠ '-'))

/-! ## Orchestrator control flow (google_authenticator,
pam_google_authenticator.c:1081-1166)

The attempt chain is modelled over the outcomes of its steps:
`preOk` = user name, secret file path, privilege drop, file read and
secret decode all succeeded; `rateRc`/`rateUpd` = return value and
`*updated` effect of `rate_limit`; `code` = result of
`request_verification_code` (negative = no code); `scratchRc`/
`scratchUpd` of `check_scratch_codes`; `totpRc`/`totpUpd` of
`check_timebased_code`.  `&&`-short-circuiting means later steps do not
run (and cannot set `updated`) once an earlier one fails. -/

structure AuthEnv where
  preOk : Bool
  rateRc : Int
  rateUpd : Bool
  code : Int
  scratchRc : Int
  scratchUpd : Bool
  totpRc : Int
  totpUpd : Bool

/-- The verdict (`rc == PAM_SUCCESS`) and the final `updated` flag of one
`google_authenticator` run. -/
def auth_run (e : AuthEnv) : Bool × Bool :=
  if e.preOk = false then (false, false)
  else if e.rateRc < 0 then (false, e.rateUpd)
  else if e.code < 0 then (false, e.rateUpd)
  else if e.scratchRc = 0 then (true, e.rateUpd || e.scratchUpd)
  else if e.scratchRc = 1 then
    (decide (e.totpRc = 0), e.rateUpd || e.scratchUpd || e.totpUpd)
  else (false, e.rateUpd || e.scratchUpd)

/-- The commit (`write_file_contents`) runs iff `updated` is set at the
end of the attempt (pam_google_authenticator.c:1141). -/
def commit_runs (e : AuthEnv) : Bool := (auth_run e).2

/-- The spec's `Decided` state (§4.9) is reached when the pre-steps, the
rate limiter and the code prompt all succeeded, so that the
scratch/TOTP decision switch executes. -/
def reached_decided (e : AuthEnv) : Bool :=
  e.preOk && decide (0 ≤ e.rateRc) && decide (0 ≤ e.code)

/-! ## Concrete data used by the theorems -/

/-- Byte decoding of the BASE32 secret `JBSWY3DPEHPK3PXP`
("Hello!" followed by DE AD BE EF). -/
def helloSecret : List Nat := [72, 101, 108, 108, 111, 33, 222, 173, 190, 239]

/-- The RFC 6238 test secret, the ASCII bytes of "12345678901234567890". -/
def rfcSecret : List Nat :=
  [49, 50, 51, 52, 53, 54, 55, 56, 57, 48, 49, 50, 51, 52, 53, 54, 55, 56, 57, 48]

/-! ## Claim C2: the codec -/

theorem compute_code_lt (secret : List Nat) (value : Nat) :
    compute_code secret value < 1000000 := by
  unfold compute_code
  exact Nat.mod_lt _ (by norm_num)

/-- C2 counterexample: the claim's example value is wrong.  For the secret
decoded from `JBSWY3DPEHPK3PXP` the code at counter 37037036 is 071271,
not 081804 (081804 is the RFC 6238 reference value for the RFC's own test
secret, the ASCII string "12345678901234567890"). -/
theorem c2_counterexample :
    compute_code helloSecret 37037036 = 71271 ∧ 71271 ≠ 81804 := by
  constructor
  · decide
  · decide

/-- C2 (amended): `compute_code` always returns a value in [0, 1000000);
it reproduces the RFC 6238 reference vector 081804 at counter 37037036
(time 1111111109 s) for the RFC test secret; for the secret
`JBSWY3DPEHPK3PXP` the code at that counter is 071271. -/
theorem c2_amended :
    (∀ (secret : List Nat) (value : Nat), compute_code secret value < 1000000) ∧
    compute_code rfcSecret 37037036 = 81804 ∧
    compute_code helloSecret 37037036 = 71271 := by
  refine ⟨compute_code_lt, by decide, by decide⟩

/-! ## Claim C9: the TOTP-mode flag -/

theorem isPrefixOf_iff_ex : ∀ (n h : List Char), n.isPrefixOf h = true ↔ ∃ t, h = n ++ t := by
  intro n
  induction n with
  | nil => intro h; simpa using ⟨h, rfl⟩
  | cons a as ih =>
      intro h
      cases h with
      | nil => simp
      | cons b bs =>
          rw [List.isPrefixOf_cons₂]
          constructor
          · intro hp
            rcases Bool.and_eq_true_iff.mp hp with ⟨h1, h2⟩
            rcases (ih bs).mp h2 with ⟨t, rfl⟩
            exact ⟨t, by simp [beq_iff_eq.mp h1]⟩
          · rintro ⟨t, ht⟩
            injection ht with h1 h2
            subst h1
            exact Bool.and_eq_true_iff.mpr ⟨beq_iff_eq.mpr rfl, (ih bs).mpr ⟨t, h2⟩⟩

theorem strstrB_iff (needle : List Char) :
    ∀ hay, strstrB needle hay = true ↔ ∃ pre post, hay = pre ++ needle ++ post := by
  intro hay
  induction hay with
  | nil =>
      simp only [strstrB, List.isEmpty_iff]
      constructor
      · intro h; exact ⟨[], [], by simp [h]⟩
      · rintro ⟨pre, post, hp⟩
        have h0 : pre ++ (needle ++ post) = [] := by simpa using hp.symm
        rcases List.append_eq_nil.mp h0 with ⟨h1, h2⟩
        exact (List.append_eq_nil.mp h2).1
  | cons c rest ih =>
      simp only [strstrB, Bool.or_eq_true, isPrefixOf_iff_ex, ih]
      constructor
      · rintro (⟨t, ht⟩ | ⟨pre, post, hp⟩)
        · exact ⟨[], t, by simpa using ht⟩
        · exact ⟨c :: pre, post, by simp [hp]⟩
      · rintro ⟨pre, post, hp⟩
        cases pre with
        | nil => exact Or.inl ⟨post, by simpa using hp⟩
        | cons p ps =>
            right
            injection hp with h1 h2
            exact ⟨ps, post, h2⟩

/-- C9 counterexample: a buffer in which `" TOTP_AUTH` occurs only in the
middle of a line (so that no option line carries the key `TOTP_AUTH`)
still enables TOTP mode. -/
def c9_buf : List Char :=
  ['A', 'B', '\n', 'x', '"', ' ', 'T', 'O', 'T', 'P', '_', 'A', 'U', 'T', 'H', '\n']

/-- C9 counterexample: `is_totp` accepts `c9_buf` although the config-line
store finds no option line whose key is `TOTP_AUTH`. -/
theorem c9_counterexample :
    is_totp c9_buf = true ∧ get_cfg_value TOTP_AUTH_key c9_buf = none := by
  constructor
  · decide
  · decide

/-- C9 (amended): TOTP mode is enabled iff the eleven-character token
quote-space-`TOTP_AUTH` occurs anywhere in the buffer, option line or
not (`is_totp` is a plain `strstr`). -/
theorem c9_amended (buf : List Char) :
    is_totp buf = true ↔ ∃ pre post, buf = pre ++ totpToken ++ post :=
  strstrB_iff totpToken buf

/-! ## Claim C6: when the commit runs -/

/-- Adapter from the rate limiter's result to its C return value. -/
def rateRcOf : RateResult → Int
  | .disabled => 0
  | .errParse => -1
  | .ok _ => 0
  | .exceeded _ => -1

/-- A state buffer whose RATE_LIMIT line (one attempt per 30 s, one
recent attempt recorded) is over the limit at time 100. -/
def c6_buf : List Char :=
  ['S', '\n', '"', ' ', 'R', 'A', 'T', 'E', '_', 'L', 'I', 'M', 'I', 'T',
   ' ', '1', ' ', '3', '0', ' ', '9', '9', '\n']

/-- The attempt environment produced by `c6_buf` at time 100: the rate
limiter rejects the attempt (and records it), so the code prompt never
runs and the Decided state is not reached. -/
def c6_env : AuthEnv :=
  { preOk := true
    rateRc := rateRcOf (rate_limit c6_buf 100).1
    rateUpd := (rate_limit c6_buf 100).2
    code := -1
    scratchRc := 1
    scratchUpd := false
    totpRc := -1
    totpUpd := false }

/-- C6 counterexample: on a rate-limited attempt the commit runs although
the Decided state was never reached, because the rate limiter already
marked the buffer updated before failing the attempt. -/
theorem c6_counterexample :
    commit_runs c6_env = true ∧ reached_decided c6_env = false := by
  constructor
  · decide
  · decide

/-- C6 (amended): the commit runs iff the `updated` flag is set, i.e. iff
the pre-steps succeeded and either the rate limiter recorded something,
or the chain reached the decision switch and the scratch or TOTP verifier
recorded something — regardless of whether `Decided` was reached and of
the final verdict. -/
theorem c6_amended (e : AuthEnv) :
    commit_runs e = true ↔
      (e.preOk = true ∧
        (e.rateUpd = true ∨
          (0 ≤ e.rateRc ∧ 0 ≤ e.code ∧
            (e.scratchUpd = true ∨ (e.scratchRc = 1 ∧ e.totpUpd = true))))) := by
  rcases e with ⟨p, rr, ru, cd, sr, su, tr, tu⟩
  simp only [commit_runs, auth_run]
  cases p <;> cases ru <;> cases su <;> cases tu <;>
    split_ifs <;> simp_all <;> omega

/-! ## Claim C3: the replay ledger -/

theorem invalidate_step_none_iff (tm w : Int) (l : List Int) :
    invalidate_step tm w l = none ↔ tm ∈ l := by
  induction l with
  | nil => simp [invalidate_step]
  | cons b rest ih =>
      simp only [invalidate_step]
      by_cases hb : b = tm
      · simp [hb]
      · rw [if_neg hb]
        split
        · simpa [Ne.symm hb] using ih
        · simpa [Ne.symm hb, Option.map_eq_none'] using ih

theorem invalidate_step_filter (tm w : Int) (l : List Int) (h : tm ∉ l) :
    invalidate_step tm w l =
      some (l.filter (fun b => decide (b - tm < w) && decide (tm - b < w))) := by
  induction l with
  | nil => simp [invalidate_step]
  | cons b rest ih =>
      have hb : b ≠ tm := fun hc => h (hc ▸ List.mem_cons_self b rest)
      have hr : tm ∉ rest := fun hc => h (List.mem_cons_of_mem b hc)
      simp only [invalidate_step, if_neg hb]
      split
      · next hd =>
          rw [ih hr, List.filter_cons_of_neg]
          simp only [Bool.and_eq_true, decide_eq_true_eq]
          omega
      · next hd =>
          rw [ih hr, List.filter_cons_of_pos]
          · simp
          · simp only [Bool.and_eq_true, decide_eq_true_eq]
            omega

/-- C3: with DISALLOW_REUSE set and a valid window, a matching TOTP code
at counter `tm` is rejected as a replay iff `tm` is among the blocked
counters; otherwise exactly the expired entries (|b - tm| >= window) are
dropped, `tm` is appended, and the attempt succeeds (the caller then
marks the buffer updated and rewrites the line). -/
theorem c3_replay_ledger (tm w : Int) (ledger : List Int) (hw : 1 ≤ w) :
    (invalidate_timebased_code tm w ledger = none ↔ tm ∈ ledger) ∧
    (tm ∉ ledger →
      invalidate_timebased_code tm w ledger =
        some ((ledger.filter (fun b => decide (b - tm < w) && decide (tm - b < w))) ++ [tm])) := by
  constructor
  · simpa [invalidate_timebased_code, Option.map_eq_none'] using
      invalidate_step_none_iff tm w ledger
  · intro hmem
    simp [invalidate_timebased_code, invalidate_step_filter tm w ledger hmem]

/-- C3 witness: at counter 100 with window 3 and ledger {97, 99}: no
replay (100 unused), 97 expires, 99 is kept, 100 is appended. -/
theorem c3_witness :
    (invalidate_timebased_code 100 3 [97, 99] = none ↔ (100 : Int) ∈ [97, 99]) ∧
    ((100 : Int) ∉ [97, 99] →
      invalidate_timebased_code 100 3 [97, 99] =
        some (([97, 99].filter
          (fun b => decide (b - 100 < 3) && decide (100 - b < 3))) ++ [100])) :=
  c3_replay_ledger 100 3 [97, 99] (by norm_num)

/-! ## Claim C7: the skew tracker -/

/-- C7 counterexample: with pending evidence (10,+6), (11,+4) and a new
attempt at tm=12 with skew candidate +5, the tracker accepts and sets
TIME_SKEW to 5 although the three candidates 6, 4, 5 do not all lie
within plus-or-minus 1 of each other (6 - 4 = 2). -/
theorem c7_counterexample :
    check_time_skew 5 12 [(10, 6), (11, 4)] = SkewResult.accepted 5 ∧
    1 < (6 : Int) - 4 := by
  constructor
  · decide
  · decide

/-- C7 (amended): with the ledger holding three entries after the append,
the attempt is accepted iff the `tm` values are strictly increasing with
gaps at most 2 and the first two skew candidates each lie within
plus-or-minus 1 of the newest candidate (the code compares the stored
candidates against the current skew argument, not against each other);
on acceptance TIME_SKEW becomes the truncated integer average of the
three and RESETTING_TIME_SKEW is cleared, otherwise the updated
three-entry FIFO ledger is persisted and the attempt fails; identical
evidence (`tm + skew` repeating the newest entry) is discarded without
any state change. -/
theorem check_time_skew_append_three (skew tm t0 s0 t1 s1 : Int) :
    check_time_skew_append skew tm [(t0, s0), (t1, s1)] =
      (if t1 ≤ t0 ∨ t0 + 2 < t1 ∨ s0 - skew < -1 ∨ 1 < s0 - skew then
        SkewResult.keepTrying [(t0, s0), (t1, s1), (tm, skew)]
      else if tm ≤ t1 ∨ t1 + 2 < tm ∨ s1 - skew < -1 ∨ 1 < s1 - skew then
        SkewResult.keepTrying [(t0, s0), (t1, s1), (tm, skew)]
      else SkewResult.accepted (Int.tdiv (s0 + s1 + skew) 3)) := rfl

theorem check_time_skew_append_four (skew tm t0 s0 t1 s1 : Int) (x : Int × Int) :
    check_time_skew_append skew tm [x, (t0, s0), (t1, s1)] =
      check_time_skew_append skew tm [(t0, s0), (t1, s1)] := rfl

theorem c7_amended (skew tm t0 s0 t1 s1 : Int) (front : List (Int × Int))
    (hf : front.length ≤ 1) :
    (tm + skew = t1 + s1 →
      check_time_skew skew tm (front ++ [(t0, s0), (t1, s1)]) = SkewResult.retype) ∧
    (tm + skew ≠ t1 + s1 →
      ((check_time_skew skew tm (front ++ [(t0, s0), (t1, s1)]) =
          SkewResult.accepted (Int.tdiv (s0 + s1 + skew) 3) ↔
        (t0 < t1 ∧ t1 ≤ t0 + 2 ∧ t1 < tm ∧ tm ≤ t1 + 2 ∧
         s0 - skew ≤ 1 ∧ -1 ≤ s0 - skew ∧ s1 - skew ≤ 1 ∧ -1 ≤ s1 - skew)) ∧
       (¬ (t0 < t1 ∧ t1 ≤ t0 + 2 ∧ t1 < tm ∧ tm ≤ t1 + 2 ∧
           s0 - skew ≤ 1 ∧ -1 ≤ s0 - skew ∧ s1 - skew ≤ 1 ∧ -1 ≤ s1 - skew) →
         check_time_skew skew tm (front ++ [(t0, s0), (t1, s1)]) =
           SkewResult.keepTrying [(t0, s0), (t1, s1), (tm, skew)]))) := by
  have hcases : front = [] ∨ ∃ x, front = [x] := by
    rcases front with _ | ⟨x, rest⟩
    · exact Or.inl rfl
    · rcases rest with _ | ⟨y, r2⟩
      · exact Or.inr ⟨x, rfl⟩
      · simp at hf
  rcases hcases with rfl | ⟨x, rfl⟩
  · refine ⟨fun hdup => by simp [check_time_skew, hdup], fun hdup => ?_⟩
    have hr : check_time_skew skew tm [(t0, s0), (t1, s1)] =
        check_time_skew_append skew tm [(t0, s0), (t1, s1)] := by
      simp [check_time_skew, hdup]
    rw [List.nil_append, hr, check_time_skew_append_three]
    split_ifs with h1 h2
    · refine ⟨⟨fun habs => by simp at habs, fun hcond => ?_⟩, fun _ => rfl⟩
      exfalso; rcases h1 with h | h | h | h <;> omega
    · refine ⟨⟨fun habs => by simp at habs, fun hcond => ?_⟩, fun _ => rfl⟩
      exfalso; rcases h2 with h | h | h | h <;> omega
    · refine ⟨⟨fun _ => ?_, fun _ => rfl⟩, fun hnc => ?_⟩
      · push_neg at h1 h2
        refine ⟨by omega, by omega, by omega, by omega, by omega, by omega, by omega, by omega⟩
      · exact absurd ⟨by push_neg at h1; omega, by push_neg at h1; omega,
          by push_neg at h2; omega, by push_neg at h2; omega,
          by push_neg at h1; omega, by push_neg at h1; omega,
          by push_neg at h2; omega, by push_neg at h2; omega⟩ hnc
  · refine ⟨fun hdup => by simp [check_time_skew, hdup], fun hdup => ?_⟩
    have hr : check_time_skew skew tm [x, (t0, s0), (t1, s1)] =
        check_time_skew_append skew tm [x, (t0, s0), (t1, s1)] := by
      simp [check_time_skew, hdup]
    rw [List.cons_append, List.nil_append, hr, check_time_skew_append_four,
      check_time_skew_append_three]
    split_ifs with h1 h2
    · refine ⟨⟨fun habs => by simp at habs, fun hcond => ?_⟩, fun _ => rfl⟩
      exfalso; rcases h1 with h | h | h | h <;> omega
    · refine ⟨⟨fun habs => by simp at habs, fun hcond => ?_⟩, fun _ => rfl⟩
      exfalso; rcases h2 with h | h | h | h <;> omega
    · refine ⟨⟨fun _ => ?_, fun _ => rfl⟩, fun hnc => ?_⟩
      · push_neg at h1 h2
        refine ⟨by omega, by omega, by omega, by omega, by omega, by omega, by omega, by omega⟩
      · exact absurd ⟨by push_neg at h1; omega, by push_neg at h1; omega,
          by push_neg at h2; omega, by push_neg at h2; omega,
          by push_neg at h1; omega, by push_neg at h1; omega,
          by push_neg at h2; omega, by push_neg at h2; omega⟩ hnc

/-- C7 witness: three in-sync pieces of evidence with skew 10 at
counters 1000, 1001, 1002 are accepted and set TIME_SKEW to 10. -/
theorem c7_witness :
    check_time_skew 10 1002 [(1000, 10), (1001, 10)] =
      SkewResult.accepted (Int.tdiv (10 + 10 + 10) 3) := by
  have H := c7_amended 10 1002 1000 10 1001 10 [] (by norm_num)
  exact ((H.2 (by norm_num)).1).mpr (by norm_num)

/-! ## Claim C8: the skew search -/

theorem skew_probes_mem (o : Int) :
    o ∈ skew_probe_offsets ↔ (-1499 ≤ o ∧ o ≤ 1499) := by
  simp only [skew_probe_offsets, skew_probe_offsets_n, List.mem_flatMap,
    List.mem_range, List.mem_cons, List.mem_singleton, List.not_mem_nil, or_false]
  constructor
  · rintro ⟨i, hi, h | h⟩ <;> omega
  · intro h
    refine ⟨o.natAbs, by omega, by omega⟩

theorem skew_fold_eq (secret : List Nat) (tm : Int) (code : Nat) (n : Nat) :
    skew_search_n secret tm code n =
    (skew_probe_offsets_n n).find?
      (fun o => compute_code secret (toUInt64 (tm + o)) == code) := by
  induction n with
  | zero => simp [skew_search_n, skew_probe_offsets_n]
  | succ n ih =>
      unfold skew_search_n skew_probe_offsets_n at ih ⊢
      rw [List.range_succ, List.foldl_append, List.flatMap_append, List.find?_append, ih]
      simp only [List.foldl_cons, List.foldl_nil, List.flatMap_cons, List.flatMap_nil,
        List.append_nil]
      cases hfp : (((List.range n).flatMap (fun i => [-(i : Int), (i : Int)])).find?
          (fun o => compute_code secret (toUInt64 (tm + o)) == code)) with
      | some a => simp [hfp]
      | none =>
          simp only [hfp, Option.none_or]
          by_cases hc1 : compute_code secret (toUInt64 (tm - (n : Int))) = code
          · have hp1 : (compute_code secret (toUInt64 (tm + -(n : Int))) == code) = true := by
              rw [← sub_eq_add_neg]; exact beq_iff_eq.mpr hc1
            simp [List.find?_cons, hp1, hc1]
          · have hp1 : (compute_code secret (toUInt64 (tm + -(n : Int))) == code) = false := by
              rw [← sub_eq_add_neg]
              exact beq_eq_false_iff_ne.mpr hc1
            by_cases hc2 : compute_code secret (toUInt64 (tm + (n : Int))) = code
            · simp [List.find?_cons, hp1, hc1, hc2]
            · simp [List.find?_cons, hp1, hc1, hc2, beq_eq_false_iff_ne.mpr hc2]

theorem skew_search_eq_find (secret : List Nat) (tm : Int) (code : Nat) :
    skew_search secret tm code =
      skew_probe_offsets.find?
        (fun o => compute_code secret (toUInt64 (tm + o)) == code) :=
  skew_fold_eq secret tm code 1500

/-- C8 (amended): the skew search is the first-match scan over the probe
offsets 0, -1, +1, ..., -1499, +1499 — i.e. over the counters
[now - 1499, now + 1499], not [now - 1500, now + 1500]; it returns a
skew candidate iff some counter in that range reproduces the submitted
code, and fails (the attempt then fails) iff none does. -/
theorem c8_amended (secret : List Nat) (tm : Int) (code : Nat) :
    (skew_search secret tm code =
      skew_probe_offsets.find?
        (fun o => compute_code secret (toUInt64 (tm + o)) == code)) ∧
    (∀ o : Int, o ∈ skew_probe_offsets ↔ (-1499 ≤ o ∧ o ≤ 1499)) ∧
    (skew_search secret tm code = none ↔
      ∀ o : Int, -1499 ≤ o → o ≤ 1499 →
        compute_code secret (toUInt64 (tm + o)) ≠ code) ∧
    (∀ s : Int, skew_search secret tm code = some s →
      (-1499 ≤ s ∧ s ≤ 1499 ∧ compute_code secret (toUInt64 (tm + s)) = code)) := by
  refine ⟨skew_search_eq_find secret tm code, skew_probes_mem, ?_, ?_⟩
  · rw [skew_search_eq_find, List.find?_eq_none]
    constructor
    · intro h o h1 h2 hc
      exact absurd (beq_iff_eq.mpr hc)
        (by simpa using h o ((skew_probes_mem o).mpr ⟨h1, h2⟩))
    · intro h o ho
      rcases (skew_probes_mem o).mp ho with ⟨h1, h2⟩
      simpa using h o h1 h2
  · intro s hs
    rw [skew_search_eq_find] at hs
    have hp := List.find?_some hs
    have hm := (skew_probes_mem s).mp (List.mem_of_find?_eq_some hs)
    exact ⟨hm.1, hm.2, beq_iff_eq.mp hp⟩

/-- C8 counterexample: the offsets +1500 and -1500 (counters now ± 1500)
are never probed by the skew search, although offset 1499 is; the loop
`for (i = 0; i < 25*60; ++i)` covers [tm - 1499, tm + 1499] only. -/
theorem c8_counterexample :
    ((1500 : Int) ∉ skew_probe_offsets) ∧ ((-1500 : Int) ∉ skew_probe_offsets) ∧
    ((1499 : Int) ∈ skew_probe_offsets) := by
  refine ⟨fun h => ?_, fun h => ?_, ?_⟩
  · have := (skew_probes_mem 1500).mp h; omega
  · have := (skew_probes_mem (-1500)).mp h; omega
  · exact (skew_probes_mem 1499).mpr (by norm_num)

/-! ## Claim C1: the TOTP verifier's acceptance window -/

/-- A minimal TOTP state buffer: secret line plus the TOTP_AUTH marker
(window size 3 and skew 0 by default). -/
def c1_buf : List Char :=
  ['S', 'E', 'C', 'R', 'E', 'T', '\n', '"', ' ',
   'T', 'O', 'T', 'P', '_', 'A', 'U', 'T', 'H', '\n']

/-- C1: in TOTP mode with a valid WINDOW_SIZE `w` and TIME_SKEW `s`, a
submitted code in [0, 1000000) is delegated to the replay ledger at
counter `tm + s + i0` for the first matching offset `i0`; a delegation
happens iff some offset in the window matches; the window offsets are
exactly the integers in [-(w-1)/2, w/2]; and for the default w = 3 the
offsets tried are exactly -1, 0, 1. -/
theorem c1_totp_window (buf : List Char) (secret : List Nat) (tm code : Int)
    (nsa : Bool) (w : Nat) (s : Int)
    (htotp : is_totp buf = true) (hw : window_size buf = w) (hw0 : w ≠ 0)
    (hs : skew_of buf = s) (hc0 : 0 ≤ code) (hc1 : code < 1000000) :
    (∀ i0 : Int, (window_offsets w).find?
        (fun i => compute_code secret (toUInt64 (tm + s + i)) == code.toNat) = some i0 →
      check_timebased_code buf secret tm code nsa = TotpOutcome.delegate (tm + s + i0)) ∧
    ((∃ c, check_timebased_code buf secret tm code nsa = TotpOutcome.delegate c) ↔
      ∃ i ∈ window_offsets w, compute_code secret (toUInt64 (tm + s + i)) = code.toNat) ∧
    (∀ i : Int, i ∈ window_offsets w ↔
      (-(((w - 1) / 2 : Nat) : Int) ≤ i ∧ i ≤ ((w / 2 : Nat) : Int))) ∧
    window_offsets 3 = [-1, 0, 1] := by
  have hbody : check_timebased_code buf secret tm code nsa =
      (match (window_offsets w).find?
          (fun i => compute_code secret (toUInt64 (tm + s + i)) == code.toNat) with
       | some i => TotpOutcome.delegate (tm + s + i)
       | none =>
           if nsa then TotpOutcome.noMatch
           else
             match skew_search secret tm code.toNat with
             | some sk => TotpOutcome.skewCheck sk
             | none => TotpOutcome.noMatch) := by
    rw [check_timebased_code]
    rw [if_neg (by simp [htotp]), if_neg (by omega)]
    simp only [hs, hw]
    rw [if_neg hw0]
  refine ⟨?_, ?_, ?_, by decide⟩
  · intro i0 hfind
    rw [hbody, hfind]
  · rw [hbody]
    cases hfind : (window_offsets w).find?
        (fun i => compute_code secret (toUInt64 (tm + s + i)) == code.toNat) with
    | some i =>
        constructor
        · intro _
          have hp := List.find?_some hfind
          have hm := List.mem_of_find?_eq_some hfind
          exact ⟨i, hm, beq_iff_eq.mp hp⟩
        · intro _
          exact ⟨tm + s + i, rfl⟩
    | none =>
        constructor
        · rintro ⟨c, hc⟩
          exfalso
          cases nsa with
          | true => simp at hc
          | false =>
              cases hsk : skew_search secret tm code.toNat with
              | some sk => rw [if_neg (by simp)] at hc; rw [hsk] at hc; simp at hc
              | none => rw [if_neg (by simp)] at hc; rw [hsk] at hc; simp at hc
        · rintro ⟨i, hmem, hcode⟩
          have := List.find?_eq_none.mp hfind i hmem
          exact absurd (beq_iff_eq.mpr hcode) this
  · intro i
    simp only [window_offsets, List.mem_map, List.mem_range]
    constructor
    · rintro ⟨k, hk, rfl⟩
      omega
    · rintro ⟨h1, h2⟩
      refine ⟨(i + (((w - 1) / 2 : Nat) : Int)).toNat, by omega, by omega⟩

/-- C1 witness: with the RFC secret at counter 37037036 and submitted
code 081804, the verifier delegates to the replay ledger at counter
37037036 itself (offset 0 is the first match), and with the default
window the offsets tried are -1, 0, 1. -/
theorem c1_witness :
    check_timebased_code c1_buf rfcSecret 37037036 81804 true =
      TotpOutcome.delegate 37037036 ∧
    window_offsets 3 = [-1, 0, 1] := by
  have H := c1_totp_window c1_buf rfcSecret 37037036 81804 true 3 0
    (by decide) (by decide) (by decide) (by decide) (by decide) (by decide)
  refine ⟨?_, H.2.2.2⟩
  have hfind : (window_offsets 3).find?
      (fun i => compute_code rfcSecret (toUInt64 (37037036 + 0 + i)) ==
        (81804 : Int).toNat) = some 0 := by decide
  have h2 := H.1 0 hfind
  simpa using h2

/-! ## Claim C10: malformed TIME_SKEW is tolerated -/

theorem grabDigits_no_digit (l : List Char) (acc n : Nat)
    (h : l.head?.elim true (fun c => ! isDigitC c) = true) :
    grabDigits acc n l = (acc, n, l) := by
  cases l with
  | nil => rfl
  | cons c cs =>
      simp only [List.head?_cons, Option.elim_some, Bool.not_eq_eq_eq_not,
        Bool.not_true] at h
      simp [grabDigits, h]

theorem grabDigits_all_digits (ds : List Char) :
    ∀ (rest : List Char) (acc n : Nat),
      ds.all isDigitC = true →
      rest.head?.elim true (fun c => ! isDigitC c) = true →
      grabDigits acc n (ds ++ rest) =
        ((grabDigits acc n ds).1, (grabDigits acc n ds).2.1, rest) := by
  induction ds with
  | nil =>
      intro rest acc n _ hrest
      simp [grabDigits, grabDigits_no_digit rest acc n hrest]
  | cons d ds ih =>
      intro rest acc n hds hrest
      rw [List.all_cons, Bool.and_eq_true] at hds
      obtain ⟨hd, hds'⟩ := hds
      simp only [List.cons_append, grabDigits, hd, if_true]
      exact ih rest _ _ hds' hrest

theorem digit_not_space (c : Char) (h : isDigitC c = true) : isSpaceC c = false := by
  cases hs : isSpaceC c
  · rfl
  · exfalso
    simp only [isSpaceC, decide_eq_true_eq] at hs
    rcases hs with rfl | rfl | rfl | rfl | rfl | rfl <;> exact absurd h (by decide)

theorem digit_ne_dash (c : Char) (h : isDigitC c = true) : (c = '-') = False := by
  simp only [eq_iff_iff, iff_false]
  intro hc
  exact absurd h (hc ▸ by decide)

theorem digit_ne_plus (c : Char) (h : isDigitC c = true) : (c = '+') = False := by
  simp only [eq_iff_iff, iff_false]
  intro hc
  exact absurd h (hc ▸ by decide)

/-- C10: the TIME_SKEW value is parsed with `strtol` and never validated:
a value with no leading number parses to skew 0, a value with trailing
garbage contributes its leading numeric prefix (clamped at LONG_MAX), and
`check_timebased_code` can return its configuration-error outcome only
because of WINDOW_SIZE — never because of TIME_SKEW; by contrast a
malformed WINDOW_SIZE (non-numeric, or with trailing garbage) and a
malformed RATE_LIMIT value abort the attempt. -/
theorem c10_malformed_time_skew :
    (∀ v : List Char,
      ((signOf (v.dropWhile isSpaceC)).2).head?.elim true (fun c => ! isDigitC c) = true →
      strtol_val v = 0) ∧
    (∀ ds rest : List Char, ds ≠ [] → ds.all isDigitC = true →
      rest.head?.elim true (fun c => ! isDigitC c) = true →
      strtol_val (ds ++ rest) =
        min ((grabDigits 0 0 ds).1 : Int) 9223372036854775807) ∧
    (∀ (buf : List Char) (secret : List Nat) (tm code : Int) (nsa : Bool),
      check_timebased_code buf secret tm code nsa = TotpOutcome.errWindow ↔
        (is_totp buf = true ∧ 0 ≤ code ∧ code < 1000000 ∧ window_size buf = 0)) ∧
    window_size_val ['a', 'b', 'c'] = 0 ∧
    window_size_val ['5', 'x'] = 0 ∧
    wrap32 (strtol_val ['a', 'b', 'c']) = 0 ∧
    wrap32 (strtol_val ['5', 'x']) = 5 ∧
    rate_limit_parse ['a', 'b', 'c'] = none := by
  refine ⟨?_, ?_, ?_, by decide, by decide, by decide, by decide, by decide⟩
  · intro v hh
    simp only [strtol_val]
    rw [grabDigits_no_digit _ 0 0 hh]
    simp
  · intro ds rest hne hds hrest
    have hd1 : ∃ d ds1, ds = d :: ds1 := by
      cases ds with
      | nil => exact absurd rfl hne
      | cons d ds1 => exact ⟨d, ds1, rfl⟩
    rcases hd1 with ⟨d, ds1, rfl⟩
    have hd : isDigitC d = true := by
      have h := hds
      rw [List.all_cons, Bool.and_eq_true] at h
      exact h.1
    have hnospace : (d :: ds1 ++ rest).dropWhile isSpaceC = d :: (ds1 ++ rest) := by
      rw [List.cons_append]
      exact List.dropWhile_cons_of_neg (by simp [digit_not_space d hd])
    have hsign : signOf (d :: (ds1 ++ rest)) = (none, d :: (ds1 ++ rest)) := by
      simp [signOf, digit_ne_dash d hd, digit_ne_plus d hd]
    simp only [strtol_val, hnospace, hsign]
    have hgd := grabDigits_all_digits (d :: ds1) rest 0 0 hds hrest
    rw [List.cons_append] at hgd
    rw [hgd]
    have hnd : (grabDigits 0 0 (d :: ds1)).2.1 ≠ 0 := by
      simp only [grabDigits, hd, if_true]
      have h9 := grabDigits_count_ge ds1 (0 * 10 + (d.toNat - 48)) (0 + 1)
      have h10 := grabDigits_count_ge ds1 (0 * 10 + (d.toNat - 48)) 1
      omega
    simp only [hnd, if_false]
    simp
  · intro buf secret tm code nsa
    by_cases h1 : is_totp buf
    · by_cases h2 : code < 0 ∨ 1000000 ≤ code
      · rw [check_timebased_code, if_neg (by simp [h1]), if_pos h2]
        constructor
        · intro hx
          exact absurd hx (by simp)
        · rintro ⟨_, hc0, hc1, _⟩
          omega
      · by_cases h3 : window_size buf = 0
        · rw [check_timebased_code, if_neg (by simp [h1]), if_neg h2, if_pos h3]
          exact ⟨fun _ => ⟨h1, by omega, by omega, h3⟩, fun _ => rfl⟩
        · rw [check_timebased_code, if_neg (by simp [h1]), if_neg h2]
          rw [if_neg h3]
          constructor
          · intro hx
            exfalso
            cases hfind : (window_offsets (window_size buf)).find?
                (fun i => compute_code secret (toUInt64 (tm + skew_of buf + i)) ==
                  code.toNat) with
            | some i =>
                rw [hfind] at hx
                simp at hx
            | none =>
                rw [hfind] at hx
                cases nsa with
                | true => simp at hx
                | false =>
                    simp only [Bool.false_eq_true, if_false] at hx
                    cases hsk : skew_search secret tm code.toNat with
                    | some sk => rw [hsk] at hx; simp at hx
                    | none => rw [hsk] at hx; simp at hx
          · rintro ⟨_, _, _, hw⟩
            exact absurd hw h3
    · rw [check_timebased_code, if_pos (by simp [h1])]
      constructor
      · intro hx
        exact absurd hx (by simp)
      · rintro ⟨ht, _⟩
        exact absurd ht h1

/-- C10 witness: value "gbg" yields skew 0; value "7z" yields skew 7. -/
theorem c10_witness :
    strtol_val ['g', 'b', 'g'] = 0 ∧
    strtol_val (['7'] ++ ['z']) =
      min ((grabDigits 0 0 ['7']).1 : Int) 9223372036854775807 := by
  constructor
  · exact c10_malformed_time_skew.1 ['g', 'b', 'g'] (by decide)
  · exact c10_malformed_time_skew.2.1 ['7'] ['z'] (by decide) (by decide) (by decide)

/-! ## Claim C4: the rate limiter -/

theorem prune_eq_filter (bound now : Nat) :
    ∀ l : List Nat, l.Pairwise (· ≤ ·) →
      prune_timestamps bound now l =
        l.filter (fun x => decide (bound ≤ x) && decide (x ≤ now)) := by
  intro l
  induction l with
  | nil => intro _; simp [prune_timestamps]
  | cons t rest ih =>
      intro hp
      rw [List.pairwise_cons] at hp
      obtain ⟨hall, hp'⟩ := hp
      simp only [prune_timestamps]
      by_cases h1 : t < bound
      · rw [if_pos h1, ih hp', List.filter_cons_of_neg]
        simp only [Bool.and_eq_true, decide_eq_true_eq, not_and]
        omega
      · rw [if_neg h1]
        by_cases h2 : now < t
        · rw [if_pos h2]
          symm
          rw [List.filter_eq_nil_iff]
          intro a ha
          rcases List.mem_cons.mp ha with rfl | hmem
          · simp only [Bool.and_eq_true, decide_eq_true_eq, not_and]
            omega
          · have := hall a hmem
            simp only [Bool.and_eq_true, decide_eq_true_eq, not_and]
            omega
        · rw [if_neg h2, ih hp', List.filter_cons_of_pos]
          simp only [Bool.and_eq_true, decide_eq_true_eq]
          omega

theorem getLast_of_sorted_max : ∀ (l : List Nat) (a : Nat), l.Pairwise (· ≤ ·) →
    a ∈ l → (∀ x ∈ l, x ≤ a) → l.getLast? = some a := by
  intro l
  induction l with
  | nil => intro a _ ha _; simp at ha
  | cons x xs ih =>
      intro a hp hmem hub
      rw [List.pairwise_cons] at hp
      obtain ⟨hall, hp'⟩ := hp
      cases xs with
      | nil =>
          have : a = x := by simpa using hmem
          simp [this]
      | cons y ys =>
          rw [List.getLast?_cons_cons]
          rcases List.mem_cons.mp hmem with rfl | hmem'
          · have hya : y = a := le_antisymm (hub y (by simp)) (hall y (by simp))
            exact ih a hp' (by simp [hya]) (fun z hz => hub z (List.mem_cons_of_mem _ hz))
          · exact ih a hp' hmem' (fun z hz => hub z (List.mem_cons_of_mem _ hz))

theorem getLast?_drop_of_lt : ∀ (l : List Nat) (d : Nat), d < l.length →
    (l.drop d).getLast? = l.getLast? := by
  intro l
  induction l with
  | nil => intro d hd; simp at hd
  | cons x xs ih =>
      intro d hd
      cases d with
      | zero => rfl
      | succ d2 =>
          have hx : d2 < xs.length := by simpa using hd
          cases xs with
          | nil => simp at hx
          | cons y ys =>
              simp only [List.drop_succ_cons, List.getLast?_cons_cons]
              exact ih d2 hx

/-- C4: with a syntactically valid RATE_LIMIT value `N T t1 ... tk`
(`N ∈ [1,100]`, `T ∈ [1,3600]`) and `T ≤ now`: the current time is added,
the timestamps are sorted and the entries outside [now - T, now] are
dropped; the attempt fails iff more than N entries remain, in which case
only the most recent N are kept; in every valid case the line is
rewritten with the buffer marked updated, and the stored list ends with
the current attempt's timestamp (the attempt is counted whether or not
the subsequent code check succeeds). -/
theorem c4_rate_limit (buf : List Char) (now : Nat) (v : List Char)
    (n t : Nat) (ts : List Nat)
    (hcfg : get_cfg_value RATE_LIMIT_key buf = some v)
    (hparse : rate_limit_parse v = some (n, t, ts))
    (hn : 1 ≤ n) (ht : t ≤ now) (hnow : now < M32) :
    (rate_limit buf now =
      (let fl := (List.insertionSort (fun a b => a ≤ b) (now :: ts)).filter
          (fun x => decide (now - t ≤ x) && decide (x ≤ now))
       if n < fl.length then (RateResult.exceeded (fl.drop (fl.length - n)), true)
       else (RateResult.ok fl, true))) ∧
    ((∃ l, (rate_limit buf now).1 = RateResult.exceeded l) ↔
      n < (now :: ts).countP (fun x => decide (now - t ≤ x) && decide (x ≤ now))) ∧
    (∀ l, ((rate_limit buf now).1 = RateResult.ok l ∨
           (rate_limit buf now).1 = RateResult.exceeded l) →
      l.getLast? = some now) ∧
    (rate_limit buf now).2 = true := by
  have hm : now % M32 = now := Nat.mod_eq_of_lt hnow
  have husub : usub32 now t = now - t := by
    have hb : now < 4294967296 := by simpa [M32] using hnow
    simp only [usub32, M32]
    omega
  have hsort : (List.insertionSort (fun a b => a ≤ b) (now :: ts)).Pairwise (· ≤ ·) :=
    List.sorted_insertionSort _ _
  have hperm : List.Perm (List.insertionSort (fun a b => a ≤ b) (now :: ts)) (now :: ts) :=
    List.perm_insertionSort _ _
  have hbody : rate_limit buf now =
      (let fl := (List.insertionSort (fun a b => a ≤ b) (now :: ts)).filter
          (fun x => decide (now - t ≤ x) && decide (x ≤ now))
       if n < fl.length then (RateResult.exceeded (fl.drop (fl.length - n)), true)
       else (RateResult.ok fl, true)) := by
    simp only [rate_limit, hcfg, hparse, hm, husub]
    rw [prune_eq_filter (now - t) now _ hsort]
  set fl := (List.insertionSort (fun a b => a ≤ b) (now :: ts)).filter
      (fun x => decide (now - t ≤ x) && decide (x ≤ now)) with hfl
  have hlen : fl.length = (now :: ts).countP
      (fun x => decide (now - t ≤ x) && decide (x ≤ now)) := by
    rw [hfl, ← List.countP_eq_length_filter]
    exact hperm.countP_eq _
  have hmemfl : now ∈ fl := by
    rw [hfl, List.mem_filter]
    refine ⟨hperm.mem_iff.mpr (by simp), ?_⟩
    simp only [Bool.and_eq_true, decide_eq_true_eq]
    omega
  have hub : ∀ x ∈ fl, x ≤ now := by
    intro x hx
    rw [hfl, List.mem_filter] at hx
    have := hx.2
    simp only [Bool.and_eq_true, decide_eq_true_eq] at this
    omega
  have hflsorted : fl.Pairwise (· ≤ ·) := hsort.filter _
  have hlast : fl.getLast? = some now := getLast_of_sorted_max fl now hflsorted hmemfl hub
  have hpos : 0 < fl.length := List.length_pos_of_mem hmemfl
  refine ⟨hbody, ?_, ?_, ?_⟩
  · rw [hbody]
    by_cases hex : n < fl.length
    · simp only [← hfl, hex, if_pos, if_true]
      exact ⟨fun _ => by omega, fun _ => ⟨fl.drop (fl.length - n), rfl⟩⟩
    · simp only [← hfl, hex, if_false]
      constructor
      · rintro ⟨l, hl⟩
        simp at hl
      · intro hcount
        exfalso
        rw [← hlen] at hcount
        omega
  · intro l hl
    rw [hbody] at hl
    by_cases hex : n < fl.length
    · simp only [← hfl, hex, if_true] at hl
      rcases hl with hl | hl
      · simp at hl
      · have : l = fl.drop (fl.length - n) := by
          simpa using hl.symm
        rw [this, getLast?_drop_of_lt fl (fl.length - n) (by omega)]
        exact hlast
    · simp only [← hfl, hex, if_false] at hl
      rcases hl with hl | hl
      · have : l = fl := by simpa using hl.symm
        rw [this]
        exact hlast
      · simp at hl
  · rw [hbody]
    by_cases hex : n < fl.length
    · simp [← hfl, hex]
    · simp [← hfl, hex]

/-- C4 witness: RATE_LIMIT "2 30 95 99" at time 100 is over the limit
(three attempts within the window), the buffer is marked updated, and the
recorded list ends with 100. -/
def c4_buf : List Char :=
  ['S', '\n', '"', ' ', 'R', 'A', 'T', 'E', '_', 'L', 'I', 'M', 'I', 'T',
   ' ', '2', ' ', '3', '0', ' ', '9', '5', ' ', '9', '9', '\n']

theorem c4_witness :
    (∃ l, (rate_limit c4_buf 100).1 = RateResult.exceeded l) ∧
    (rate_limit c4_buf 100).2 = true := by
  have H := c4_rate_limit c4_buf 100 ['2', ' ', '3', '0', ' ', '9', '5', ' ', '9', '9']
    2 30 [95, 99] (by decide) (by decide) (by decide) (by decide) (by decide)
  exact ⟨H.2.1.mpr (by decide), H.2.2.2⟩

/-! ## Claim C5: scratch codes -/

theorem grabDigits_count_all (ds : List Char) :
    ∀ acc n, ds.all isDigitC = true → (grabDigits acc n ds).2.1 = n + ds.length := by
  induction ds with
  | nil => intro acc n _; simp [grabDigits]
  | cons d ds ih =>
      intro acc n hds
      rw [List.all_cons, Bool.and_eq_true] at hds
      simp only [grabDigits, hds.1, if_true, List.length_cons]
      rw [ih _ _ hds.2]
      omega

theorem digit_not_eol (c : Char) (h : isDigitC c = true) : isEolC c = false := by
  cases hs : isEolC c
  · rfl
  · exfalso
    simp only [isEolC, decide_eq_true_eq] at hs
    rcases hs with rfl | rfl <;> exact absurd h (by decide)

/-- `strtoul` on a nonempty digit run followed by a non-digit remainder. -/
theorem strtoul_digits (ds rest : List Char) (hne : ds ≠ []) (hds : ds.all isDigitC = true)
    (hrest : rest.head?.elim true (fun c => ! isDigitC c) = true) :
    strtoul_ (ds ++ rest) =
      (if ULONGMAX < (grabDigits 0 0 ds).1 then ULONGMAX else (grabDigits 0 0 ds).1,
       ds.length, rest, decide (ULONGMAX < (grabDigits 0 0 ds).1)) := by
  have hd1 : ∃ d ds1, ds = d :: ds1 := by
    cases ds with
    | nil => exact absurd rfl hne
    | cons d ds1 => exact ⟨d, ds1, rfl⟩
  rcases hd1 with ⟨d, ds1, rfl⟩
  have hd : isDigitC d = true := by
    have h := hds
    rw [List.all_cons, Bool.and_eq_true] at h
    exact h.1
  have hnospace : ((d :: ds1) ++ rest).dropWhile isSpaceC = d :: (ds1 ++ rest) := by
    rw [List.cons_append]
    exact List.dropWhile_cons_of_neg (by simp [digit_not_space d hd])
  have hnotake : ((d :: ds1) ++ rest).takeWhile isSpaceC = [] := by
    rw [List.cons_append]
    exact List.takeWhile_cons_of_neg (by simp [digit_not_space d hd])
  have hsign : signOf (d :: (ds1 ++ rest)) = (none, d :: (ds1 ++ rest)) := by
    simp [signOf, digit_ne_dash d hd, digit_ne_plus d hd]
  have hgd := grabDigits_all_digits (d :: ds1) rest 0 0 hds hrest
  rw [List.cons_append] at hgd
  have hcnt : (grabDigits 0 0 (d :: ds1)).2.1 = (d :: ds1).length := by
    simpa using grabDigits_count_all (d :: ds1) 0 0 hds
  simp only [strtoul_, hnospace, hnotake, hsign, hgd, hcnt]
  have hlen0 : (d :: ds1).length ≠ 0 := by simp
  simp only [hlen0, if_false, List.length_nil, Option.isSome_none, Bool.false_eq_true]
  by_cases hov : ULONGMAX < (grabDigits 0 0 (d :: ds1)).1
  · simp [hov]
  · simp [hov]

theorem takeWhile_append_nl (tl r : List Char) (h : ∀ c ∈ tl, c ≠ '\n') :
    (tl ++ '\n' :: r).takeWhile (fun c => c ≠ '\n') = tl ∧
    (tl ++ '\n' :: r).dropWhile (fun c => c ≠ '\n') = '\n' :: r := by
  induction tl with
  | nil => simp
  | cons c cs ih =>
      have hc : c ≠ '\n' := h c (by simp)
      have hih := ih (fun x hx => h x (List.mem_cons_of_mem _ hx))
      constructor
      · rw [List.cons_append, List.takeWhile_cons_of_pos (by simpa using hc), hih.1]
      · rw [List.cons_append, List.dropWhile_cons_of_pos (by simpa using hc), hih.2]

theorem renderLines_cons (l : List Char) (ls : List (List Char)) :
    renderLines (l :: ls) = l ++ '\n' :: renderLines ls := by
  simp [renderLines]

/-- Prepending a newline (or carriage return) to the scanned suffix only
prefixes it to the result: the scanner's first step skips it. -/
theorem scratch_scan_eol (code : Int) (c : Char) (s : List Char) (hc : isEolC c = true) :
    scratch_scan code (c :: s) = (scratch_scan code s).map (fun t => c :: t) := by
  rw [scratch_scan.eq_def]
  conv_rhs => rw [scratch_scan.eq_def]
  rw [List.dropWhile_cons_of_pos hc, List.takeWhile_cons_of_pos hc]
  split
  · rw [Option.map_map]
    rfl
  · dsimp only
    split
    · rfl
    · split
      · rfl
      · rw [Option.map_map]
        rfl

theorem digit_ne_quote (c : Char) (h : isDigitC c = true) : (c = '"') = False := by
  simp only [eq_iff_iff, iff_false]
  intro hc
  exact absurd h (hc ▸ by decide)

theorem not_eol_ne_nl (c : Char) (h : isEolC c = false) : c ≠ '\n' := by
  intro hc
  rw [hc] at h
  exact absurd h (by decide)

/-- Scanning an option line (leading double quote) skips it whole. -/
theorem scratch_scan_option (code : Int) (tl r : List Char)
    (h : ∀ c ∈ tl, isEolC c = false) :
    scratch_scan code (('"' :: tl) ++ '\n' :: r) =
      (scratch_scan code r).map (fun t => ('"' :: tl) ++ '\n' :: t) := by
  have htd := takeWhile_append_nl tl r (fun c hc => not_eol_ne_nl c (h c hc))
  rw [scratch_scan.eq_def]
  rw [List.cons_append, List.dropWhile_cons_of_neg (by decide),
    List.takeWhile_cons_of_neg (by decide)]
  split
  · next tl1 heq =>
      injection heq with h1 h2
      subst h2
      rw [htd.1, htd.2, scratch_scan_eol code '\n' r (by decide), Option.map_map]
      rfl
  · next heq => exact (heq (tl ++ '\n' :: r) rfl).elim

/-- Scanning an all-digit line: break below 10^7 or on overflow, succeed
on a match (removing the digits), else continue after the line. -/
theorem scratch_scan_digits (code : Int) (ds r : List Char)
    (hne : ds ≠ []) (hds : ds.all isDigitC = true) :
    scratch_scan code (ds ++ '\n' :: r) =
      (if ULONGMAX < (grabDigits 0 0 ds).1 ∨
          toInt32 (min (grabDigits 0 0 ds).1 ULONGMAX) < 10000000 then none
       else if toInt32 (grabDigits 0 0 ds).1 = code then some ('\n' :: r)
       else (scratch_scan code ('\n' :: r)).map (fun t => ds ++ t)) := by
  obtain ⟨d, ds1, rfl⟩ : ∃ d ds1, ds = d :: ds1 := by
    cases ds with
    | nil => exact absurd rfl hne
    | cons d ds1 => exact ⟨d, ds1, rfl⟩
  have hd : isDigitC d = true := by
    have hx := hds
    rw [List.all_cons, Bool.and_eq_true] at hx
    exact hx.1
  have hst := strtoul_digits (d :: ds1) ('\n' :: r) hne hds
    (by
      show (! isDigitC '\n') = true
      decide)
  rw [scratch_scan.eq_def]
  rw [List.cons_append, List.dropWhile_cons_of_neg (by simp [digit_not_eol d hd]),
    List.takeWhile_cons_of_neg (by simp [digit_not_eol d hd])]
  rw [← List.cons_append]
  split
  · next tl heq =>
      rw [List.cons_append] at heq
      injection heq with h1 h2
      rw [h1] at hd
      exact absurd hd (by decide)
  · next heq =>
      rw [hst]
      dsimp only
      have hbt : badTailB ('\n' :: r) = false := rfl
      by_cases hov : ULONGMAX < (grabDigits 0 0 (d :: ds1)).1
      · rw [dif_pos (Or.inl (decide_eq_true hov))]
        rw [if_pos (Or.inl hov)]
      · have hmin : min ((grabDigits 0 0 (d :: ds1)).1) ULONGMAX =
            (grabDigits 0 0 (d :: ds1)).1 := by omega
        rw [hmin, if_neg hov]
        by_cases hlow : toInt32 (grabDigits 0 0 (d :: ds1)).1 < 10000000
        · rw [dif_pos (Or.inr (Or.inr (Or.inr hlow)))]
          rw [if_pos (Or.inr hlow)]
        · rw [dif_neg (by
            intro hcon
            rcases hcon with hc | hc | hc | hc
            · rw [decide_eq_true_eq] at hc
              exact hov hc
            · simp at hc
            · rw [hbt] at hc
              exact absurd hc (by decide)
            · exact hlow hc)]
          have hR : ¬(ULONGMAX < (grabDigits 0 0 (d :: ds1)).1 ∨
              toInt32 (grabDigits 0 0 (d :: ds1)).1 < 10000000) :=
            fun hc => hc.elim hov hlow
          rw [if_neg hR]
          by_cases hmatch : toInt32 (grabDigits 0 0 (d :: ds1)).1 = code
          · rw [if_pos hmatch, if_pos hmatch]
            rfl
          · rw [if_neg hmatch, if_neg hmatch]
            rw [List.take_left' rfl]
            rfl

/-- Scanning a digit run with trailing garbage stops the scan. -/
theorem scratch_scan_digits_junk (code : Int) (ds : List Char) (c : Char)
    (tl r : List Char) (hne : ds ≠ []) (hds : ds.all isDigitC = true)
    (hc1 : isDigitC c = false) (hc2 : isEolC c = false) :
    scratch_scan code ((ds ++ c :: tl) ++ '\n' :: r) = none := by
  obtain ⟨d, ds1, rfl⟩ : ∃ d ds1, ds = d :: ds1 := by
    cases ds with
    | nil => exact absurd rfl hne
    | cons d ds1 => exact ⟨d, ds1, rfl⟩
  have hd : isDigitC d = true := by
    have hx := hds
    rw [List.all_cons, Bool.and_eq_true] at hx
    exact hx.1
  have hst := strtoul_digits (d :: ds1) (c :: (tl ++ '\n' :: r)) hne hds
    (by
      show (! isDigitC c) = true
      rw [hc1]
      rfl)
  rw [List.cons_append] at hst
  rw [scratch_scan.eq_def]
  rw [List.append_assoc, List.cons_append, List.cons_append,
    List.dropWhile_cons_of_neg (by simp [digit_not_eol d hd])]
  split
  · next tl2 heq =>
      injection heq with h1 h2
      rw [h1] at hd
      exact absurd hd (by decide)
  · next heq =>
      rw [hst]
      dsimp only
      exact dif_pos (Or.inr (Or.inr (Or.inl (by
        show (! isEolC c) = true
        rw [hc2]
        rfl))))

/-- Scanning an opaque junk line stops the scan. -/
theorem scratch_scan_junk (code : Int) (c : Char) (tl r : List Char)
    (hdig : isDigitC c = false) (hsp : isSpaceC c = false) (heol : isEolC c = false)
    (hq : c ≠ '"') (hp : c ≠ '+') (hm : c ≠ '-') :
    scratch_scan code ((c :: tl) ++ '\n' :: r) = none := by
  rw [scratch_scan.eq_def]
  rw [List.cons_append, List.dropWhile_cons_of_neg (by simp [heol])]
  split
  · next tl2 heq =>
      injection heq with h1 h2
      exact absurd h1 hq
  · next heq =>
      have hs : strtoul_ (c :: (tl ++ '\n' :: r)) =
          (0, 0, c :: (tl ++ '\n' :: r), false) := by
        have hnosp : (c :: (tl ++ '\n' :: r)).dropWhile isSpaceC =
            c :: (tl ++ '\n' :: r) := List.dropWhile_cons_of_neg (by simp [hsp])
        have hsg : signOf (c :: (tl ++ '\n' :: r)) = (none, c :: (tl ++ '\n' :: r)) := by
          simp [signOf, hm, hp]
        have hgd : grabDigits 0 0 (c :: (tl ++ '\n' :: r)) =
            (0, 0, c :: (tl ++ '\n' :: r)) := by
          simp [grabDigits, hdig]
        simp [strtoul_, hnosp, hsg, hgd]
      rw [hs]
      dsimp only
      exact dif_pos (Or.inr (Or.inl rfl))

/-- The character-level scanner agrees with the specification's
line-level scan on well-formed scratch regions. -/
theorem scratch_scan_render (code : Int) : ∀ ls : List (List Char),
    (∀ l ∈ ls, wfLine l) →
    scratch_scan code (renderLines ls) =
      (scratch_spec_scan code ls).map (fun ls2 => renderLines ls2) := by
  intro ls
  induction ls with
  | nil =>
      intro _
      rw [show renderLines [] = [] from rfl, scratch_scan.eq_def]
      simp [scratch_spec_scan, strtoul_, signOf, grabDigits]
  | cons l ls ih =>
      intro hwf
      have hwl : wfLine l := hwf l (by simp)
      have hwr : ∀ x ∈ ls, wfLine x := fun x hx => hwf x (List.mem_cons_of_mem _ hx)
      rw [renderLines_cons]
      obtain ⟨hnoeol, hshape⟩ := hwl
      rcases hshape with rfl | hq | ⟨hne, hdig⟩ | ⟨ds, c, tl, rfl, hdne, hdall, hcnd⟩ |
        ⟨c, tl, rfl, h1, h2, h3, h4, h5⟩
      · rw [show ([] : List Char) ++ '\n' :: renderLines ls = '\n' :: renderLines ls
          from rfl]
        rw [scratch_scan_eol code '\n' (renderLines ls) (by decide), ih hwr]
        rw [show scratch_spec_scan code ([] :: ls) =
          (scratch_spec_scan code ls).map (fun r => [] :: r) from rfl]
        rw [Option.map_map, Option.map_map]
        rfl
      · have hql : ∃ tl, l = '"' :: tl := by
          cases l with
          | nil => simp at hq
          | cons x xs =>
              simp only [List.head?_cons, Option.some.injEq] at hq
              exact ⟨xs, by rw [hq]⟩
        rcases hql with ⟨tl, rfl⟩
        rw [scratch_scan_option code tl (renderLines ls)
          (fun c hc => hnoeol c (List.mem_cons_of_mem _ hc)), ih hwr]
        have hspec : scratch_spec_scan code (('"' :: tl) :: ls) =
            (scratch_spec_scan code ls).map (fun r => ('"' :: tl) :: r) := by
          rw [scratch_spec_scan]
          rw [if_neg (by simp), if_pos (by simp)]
        rw [hspec]
        simp only [Option.map_map]
        congr 1
        funext ls2
        simp [renderLines_cons]
      · rw [scratch_scan_digits code l (renderLines ls) hne hdig]
        have hspec : scratch_spec_scan code (l :: ls) =
            (if ULONGMAX < (grabDigits 0 0 l).1 ∨
                toInt32 (min (grabDigits 0 0 l).1 ULONGMAX) < 10000000 then none
             else if toInt32 (grabDigits 0 0 l).1 = code then some ([] :: ls)
             else (scratch_spec_scan code ls).map (fun r => l :: r)) := by
          rw [scratch_spec_scan]
          have hq2 : ¬ l.head? = some '"' := by
            cases l with
            | nil => simp
            | cons x xs =>
                have hx : isDigitC x = true := by
                  have h9 := hdig
                  rw [List.all_cons, Bool.and_eq_true] at h9
                  exact h9.1
                simp only [List.head?_cons, Option.some.injEq]
                intro hc
                rw [hc] at hx
                exact absurd hx (by decide)
          rw [if_neg hne, if_neg hq2, if_pos ⟨hne, hdig⟩]
        rw [hspec]
        by_cases hbad : ULONGMAX < (grabDigits 0 0 l).1 ∨
            toInt32 (min ((grabDigits 0 0 l).1) ULONGMAX) < 10000000
        · rw [if_pos hbad, if_pos hbad]
          rfl
        · rw [if_neg hbad, if_neg hbad]
          by_cases hmatch : toInt32 (grabDigits 0 0 l).1 = code
          · rw [if_pos hmatch, if_pos hmatch]
            simp [renderLines_cons]
          · rw [if_neg hmatch, if_neg hmatch]
            rw [scratch_scan_eol code '\n' (renderLines ls) (by decide), ih hwr]
            simp only [Option.map_map]
            congr 1
            funext ls2
            simp [renderLines_cons]
      · have hc2 : isEolC c = false := hnoeol c (by simp)
        rw [scratch_scan_digits_junk code ds c tl (renderLines ls) hdne hdall hcnd hc2]
        have hspec : scratch_spec_scan code ((ds ++ c :: tl) :: ls) = none := by
          obtain ⟨d, ds1, rfl⟩ : ∃ d ds1, ds = d :: ds1 := by
            cases ds with
            | nil => exact absurd rfl hdne
            | cons d ds1 => exact ⟨d, ds1, rfl⟩
          have hd : isDigitC d = true := by
            have hx := hdall
            rw [List.all_cons, Bool.and_eq_true] at hx
            exact hx.1
          rw [scratch_spec_scan]
          rw [if_neg (by simp), if_neg (by
              simp only [List.cons_append, List.head?_cons, Option.some.injEq]
              intro hcq
              rw [hcq] at hd
              exact absurd hd (by decide)),
            if_neg (by
              intro hcon
              have hall := hcon.2
              simp only [List.all_append, List.all_cons, hcnd, Bool.false_and,
                Bool.and_false] at hall
              simp at hall)]
        rw [hspec]
        rfl
      · have heol : isEolC c = false := hnoeol c (by simp)
        rw [scratch_scan_junk code c tl (renderLines ls) h1 h2 heol h3 h4 h5]
        have hspec : scratch_spec_scan code ((c :: tl) :: ls) = none := by
          rw [scratch_spec_scan]
          rw [if_neg (by simp), if_neg (by
              simp only [List.head?_cons, Option.some.injEq]
              exact h3),
            if_neg (by
              intro hcon
              have hall := hcon.2
              rw [List.all_cons, h1] at hall
              simp at hall)]
        rw [hspec]
        rfl

/-- `check_scratch_codes` on a state buffer whose post-secret region is
the rendering of a well-formed line list agrees with the spec's
line-level scan: 0 with the matched line's text removed (and the buffer
marked updated) on a match, 1 with the buffer untouched otherwise. -/
theorem check_scratch_spec (secret : List Char) (ls : List (List Char)) (code : Int)
    (hsec : ∀ c ∈ secret, c ≠ '\n') (hwf : ∀ l ∈ ls, wfLine l) :
    check_scratch_codes (secret ++ '\n' :: renderLines ls) code =
      (match scratch_spec_scan code ls with
       | some ls2 => (0, secret ++ '\n' :: renderLines ls2, true)
       | none => (1, secret ++ '\n' :: renderLines ls, false)) := by
  have htd := takeWhile_append_nl secret (renderLines ls) hsec
  unfold check_scratch_codes
  rw [htd.1, htd.2,
    scratch_scan_eol code '\n' (renderLines ls) (by decide),
    scratch_scan_render code ls hwf]
  cases hs : scratch_spec_scan code ls with
  | none => rfl
  | some ls2 => rfl

/-- Claim C5: a line after the secret line qualifies as a scratch code
iff parsing it as a decimal integer consumes the entire line and the
(C `int`) value is at least 10,000,000; scanning skips option lines and
blank lines and stops at the first non-qualifying line; if the submitted
code equals a qualifying scratch code that line's text is removed from
the buffer, the buffer is marked updated, and the result is 0 (success,
TOTP not consulted), otherwise 1 (fall through to the TOTP verifier).
Concretely, a 7-digit line 9999999 never matches and stops the scan, so
even a qualifying code listed after it is not reached. -/
theorem c5_scratch_codes (secret : List Char) (ls : List (List Char)) (code : Int)
    (hsec : ∀ c ∈ secret, c ≠ '\n') (hwf : ∀ l ∈ ls, wfLine l) :
    (check_scratch_codes (secret ++ '\n' :: renderLines ls) code =
      (match scratch_spec_scan code ls with
       | some ls2 => (0, secret ++ '\n' :: renderLines ls2, true)
       | none => (1, secret ++ '\n' :: renderLines ls, false))) ∧
    check_scratch_codes (['S'] ++ '\n' :: renderLines
        [['9','9','9','9','9','9','9'], ['1','2','3','4','5','6','7','8']]) 12345678 =
      (1, ['S'] ++ '\n' :: renderLines
        [['9','9','9','9','9','9','9'], ['1','2','3','4','5','6','7','8']], false) := by
  constructor
  · exact check_scratch_spec secret ls code hsec hwf
  · rw [check_scratch_spec ['S']
      [['9','9','9','9','9','9','9'], ['1','2','3','4','5','6','7','8']] 12345678
      (by decide)
      (by
        intro l hl
        rcases List.mem_cons.mp hl with rfl | hl
        · exact ⟨by decide, Or.inr (Or.inr (Or.inl (by decide)))⟩
        · rcases List.mem_cons.mp hl with rfl | hl
          · exact ⟨by decide, Or.inr (Or.inr (Or.inl (by decide)))⟩
          · exact absurd hl (List.not_mem_nil l))]
    rfl

/-- Witness for C5: the buffer `S\n12345678\n87654321\n` with submitted
code 12345678 succeeds and rewrites to `S\n\n87654321\n`. -/
theorem c5_witness :
    check_scratch_codes (['S'] ++ '\n' :: renderLines
        [['1','2','3','4','5','6','7','8'], ['8','7','6','5','4','3','2','1']]) 12345678 =
      (0, ['S'] ++ '\n' :: renderLines
        [([] : List Char), ['8','7','6','5','4','3','2','1']], true) := by
  have h := (c5_scratch_codes ['S']
      [['1','2','3','4','5','6','7','8'], ['8','7','6','5','4','3','2','1']] 12345678
      (by decide)
      (by
        intro l hl
        rcases List.mem_cons.mp hl with rfl | hl
        · exact ⟨by decide, Or.inr (Or.inr (Or.inl (by decide)))⟩
        · rcases List.mem_cons.mp hl with rfl | hl
          · exact ⟨by decide, Or.inr (Or.inr (Or.inl (by decide)))⟩
          · exact absurd hl (List.not_mem_nil l))).1
  rw [h]
  rfl

end GA

